import Mathlib

/-!
Shallow embedding of `src/main.py`, the Sephora ingredient-analysis pipeline.

Modelling conventions:
* Python floats (ratings, averages) are modelled as exact rationals `ℚ`;
  `statistics.mean` is exact rational division and `round(x, 3)` is decimal
  rounding with ties to even, matching Python's rounding mode.
* Python dicts (which preserve key insertion order) are modelled as
  association lists; `defaultdict(list)` append and dict overwrite are
  explicit operations on those lists.
* `set(...)` iteration order is unspecified in Python; it is modelled as a
  parameter (a function enumerating the distinct elements of a list), with
  first-occurrence order (`List.dedup'`, defined below) as the canonical
  instance used by the top-level pipeline.
* Exceptions are modelled with `Except`; `requests` calls are oracles passed
  in as functions.
* Python's stable `list.sort` is modelled by `List.mergeSort`, which is
  stable and sorts by the same boolean comparator; a stable sort's output is
  uniquely determined by comparator and input order.
-/

namespace Sephora

/-- Python `a or b` for optional strings: keeps `a` when it is truthy
(present and non-empty), otherwise yields `b`. -/
def pyOrStr (a b : Option String) : Option String :=
  match a with
  | some s => if s = "" then b else some s
  | none => b

/-- Python `a or b` for optional numbers: keeps `a` when it is truthy
(present and non-zero), otherwise yields `b`. -/
def pyOrRat (a b : Option ℚ) : Option ℚ :=
  match a with
  | some x => if x = 0 then b else some x
  | none => b

/-- Python `a or b` for optional integers (used for review counts). -/
def pyOrInt (a b : Option ℤ) : Option ℤ :=
  match a with
  | some x => if x = 0 then b else some x
  | none => b

/-- Round a rational to the nearest integer with ties to even, Python's
`round` applied to an exact value. -/
def roundHalfEven (q : ℚ) : ℤ :=
  let f := ⌊q⌋
  let r := q - f
  if r < 1/2 then f
  else if 1/2 < r then f + 1
  else if f % 2 = 0 then f else f + 1

/-- Python `round(q, 3)` on an exact rational. -/
def round3 (q : ℚ) : ℚ := (roundHalfEven (q * 1000) : ℚ) / 1000

/-- `statistics.mean` on an exact rational sample list. -/
def pyMean (rs : List ℚ) : ℚ := rs.sum / (rs.length : ℚ)

/-! ## Ingredient tokenizer (`normalize_ingredient_string`, src/main.py:109-126) -/

/-- Membership in the delimiter character class of `re.split(r"[;,/()]+", s)`. -/
def isSepChar (c : Char) : Bool :=
  c = ';' || c = ',' || c = '/' || c = '(' || c = ')'

/-- One step of the run-splitting scan, processed right to left. The state
is the list of fragments built so far (never empty) together with a flag
recording whether the previously processed character was a delimiter, so a
run of delimiters opens only one new fragment. -/
def splitRunsStep (p : Char → Bool) (c : Char) :
    List (List Char) × Bool → List (List Char) × Bool
  | (fs, lastSep) =>
    if p c then
      if lastSep then (fs, true) else ([] :: fs, true)
    else
      match fs with
      | [] => ([[c]], false)
      | f :: rest => ((c :: f) :: rest, false)

/-- Split a character list at each maximal run of characters satisfying `p`,
as `re.split` does for a `+`-quantified character class: consecutive
delimiters act as one separator, and delimiters at either end contribute an
empty fragment there. -/
def splitRuns (p : Char → Bool) (l : List Char) : List (List Char) :=
  (l.foldr (splitRunsStep p) ([[]], false)).1

/-- Python `str.strip()`: drop whitespace from both ends. -/
def pyStrip (l : List Char) : List Char :=
  ((l.dropWhile Char.isWhitespace).reverse.dropWhile Char.isWhitespace).reverse

/-- The character class `[a-z0-9]` (ASCII lower-case letter or digit). -/
def isLowerAlnum (c : Char) : Bool :=
  ('a' ≤ c && c ≤ 'z') || ('0' ≤ c && c ≤ '9')

/-- Model of `re.sub(r"^[^a-z0-9]+|[^a-z0-9]+$", "", token)`: remove the
maximal run of non-`[a-z0-9]` characters at each end. -/
def stripNonAlnum (l : List Char) : List Char :=
  ((l.dropWhile (fun c => !isLowerAlnum c)).reverse.dropWhile
    (fun c => !isLowerAlnum c)).reverse

/-- Per-fragment cleaning of the tokenizer loop:
`token = part.strip().lower()` followed by the edge-stripping `re.sub`. -/
def cleanFragment (part : List Char) : List Char :=
  stripNonAlnum ((pyStrip part).map Char.toLower)

/-- The `for part in parts` loop of `normalize_ingredient_string`, building
the `cleaned` accumulator in order. -/
def collectTokens : List (List Char) → List String
  | [] => []
  | part :: rest =>
    let token := cleanFragment part
    if 2 < token.length then String.mk token :: collectTokens rest
    else collectTokens rest

/-- Embedding of `normalize_ingredient_string` (src/main.py:109-126). The
argument is optional so that a Python `None` argument (which the guard
`if not ingredient_str` also sends to `[]`) is representable. -/
def normalize_ingredient_string (ingredient_str : Option String) : List String :=
  match ingredient_str with
  | none => []
  | some s =>
    if s = "" then []
    else collectTokens (splitRuns isSepChar s.toList)

/-! ## Ingredient statistics aggregator (`build_ingredient_stats`, src/main.py:129-165) -/

/-- Aggregator view of a product record: the two fields `p.get("rating")`
and `p.get("ingredients")` that `build_ingredient_stats` reads. -/
structure AProduct where
  rating : Option ℚ
  ingredients : Option String
deriving DecidableEq, Repr

/-- `ingredient_to_ratings[ing].append(r)` on an insertion-ordered
association list (`defaultdict(list)` semantics: a missing key is created
at the end, an existing key keeps its position). -/
def addRating (m : List (String × List ℚ)) (ing : String) (r : ℚ) :
    List (String × List ℚ) :=
  match m with
  | [] => [(ing, [r])]
  | (k, rs) :: rest =>
    if k = ing then (k, rs ++ [r]) :: rest else (k, rs) :: addRating rest ing r

/-- The per-product loop body of `build_ingredient_stats`
(src/main.py:137-147): the guard `if rating is None or not ingredient_str`,
tokenization, and one rating appended per element of `set(ingredients)`.
The parameter `uniq` supplies the iteration order of the Python set. -/
def statsStep (uniq : List String → List String)
    (m : List (String × List ℚ)) (p : AProduct) : List (String × List ℚ) :=
  match p.rating, p.ingredients with
  | some r, some s =>
    if s = "" then m
    else
      let unique_ings := uniq (normalize_ingredient_string (some s))
      unique_ings.foldl (fun acc ing => addRating acc ing r) m
  | _, _ => m

/-- The `ingredient_to_ratings` mapping after the first loop of
`build_ingredient_stats`. -/
def ingredientMapWith (uniq : List String → List String)
    (ps : List AProduct) : List (String × List ℚ) :=
  ps.foldl (statsStep uniq) []

/-- One row of the final statistics table (src/main.py:157-161). -/
structure IngredientStat where
  ingredient : String
  product_count : ℕ
  avg_rating_with_ingredient : ℚ
deriving DecidableEq, Repr

/-- The second loop of `build_ingredient_stats` (src/main.py:150-161): skip
ingredients with fewer than 5 ratings, otherwise emit count and rounded
mean. -/
def statsRows (m : List (String × List ℚ)) : List IngredientStat :=
  m.filterMap (fun kv =>
    if kv.2.length < 5 then none
    else some ⟨kv.1, kv.2.length, round3 (pyMean kv.2)⟩)

/-- The composite sort key
`(x["avg_rating_with_ingredient"], x["product_count"])`. -/
def statKey (s : IngredientStat) : ℚ × ℕ :=
  (s.avg_rating_with_ingredient, s.product_count)

/-- The comparator realising
`stats.sort(key=lambda x: (avg, count), reverse=True)`: `a` may precede `b`
iff the composite key of `a` is at least that of `b` lexicographically. -/
def StatGE (a b : IngredientStat) : Prop :=
  b.avg_rating_with_ingredient < a.avg_rating_with_ingredient ∨
    (b.avg_rating_with_ingredient = a.avg_rating_with_ingredient ∧
      b.product_count ≤ a.product_count)

instance : DecidableRel StatGE := fun a b => by
  unfold StatGE; infer_instance

instance : IsTotal IngredientStat StatGE := by
  constructor
  intro a b
  unfold StatGE
  rcases lt_trichotomy a.avg_rating_with_ingredient b.avg_rating_with_ingredient with h | h | h
  · exact Or.inr (Or.inl h)
  · rcases le_total a.product_count b.product_count with hc | hc
    · exact Or.inr (Or.inr ⟨h, hc⟩)
    · exact Or.inl (Or.inr ⟨h.symm, hc⟩)
  · exact Or.inl (Or.inl h)

instance : IsTrans IngredientStat StatGE := by
  constructor
  intro a b c hab hbc
  unfold StatGE at *
  rcases hab with h1 | ⟨h1, h1'⟩ <;> rcases hbc with h2 | ⟨h2, h2'⟩
  · exact Or.inl (h2.trans h1)
  · exact Or.inl (h2 ▸ h1)
  · exact Or.inl (h1 ▸ h2)
  · exact Or.inr ⟨h2.trans h1, h2'.trans h1'⟩

/-- `build_ingredient_stats` with the set-iteration order as a parameter.
Python's stable `list.sort` is modelled by the stable `List.insertionSort`
(a stable sort's output is uniquely determined by input and comparator). -/
def build_stats_with (uniq : List String → List String)
    (ps : List AProduct) : List IngredientStat :=
  (statsRows (ingredientMapWith uniq ps)).insertionSort StatGE

/-- Embedding of `build_ingredient_stats` (src/main.py:129-165), with
`List.dedup` as one concrete choice of set-iteration order. -/
def build_ingredient_stats (ps : List AProduct) : List IngredientStat :=
  build_stats_with List.dedup ps

/-! ## Catalog client (src/main.py:26-103) -/

/-- A search-page item as the loosely-typed record whose fields
`fetch_products_for_search_term` reads with `.get`. -/
structure Item where
  id : Option String
  productId : Option String
  name : Option String
  rating : Option ℚ
  averageRating : Option ℚ
  reviewsCount : Option ℤ
  reviewCount : Option ℤ
deriving DecidableEq, Repr

/-- A product stub as appended to `products` (src/main.py:67-72). -/
structure ProductStub where
  id : String
  name : Option String
  rating : ℚ
  reviews_count : Option ℤ
deriving DecidableEq, Repr

/-- The body of the item loop (src/main.py:59-72): field-name fallbacks via
Python `or`, then the guard `if product_id and rating is not None`. -/
def parseItem (p : Item) : Option ProductStub :=
  let product_id := pyOrStr p.id p.productId
  let name := p.name
  let rating := pyOrRat p.rating p.averageRating
  let reviews_count := pyOrInt p.reviewsCount p.reviewCount
  match product_id, rating with
  | some pid, some r =>
    if pid = "" then none else some ⟨pid, name, r, reviews_count⟩
  | _, _ => none

/-- A search response, with the two fields tried by
`data.get("products") or data.get("items") or []`. -/
structure SearchPage where
  products : Option (List Item)
  items : Option (List Item)
deriving DecidableEq, Repr

/-- Python `a or b` for optional item lists (truthy means non-empty). -/
def pyOrItems (a b : Option (List Item)) : Option (List Item) :=
  match a with
  | some l => if l = [] then b else some l
  | none => b

/-- `items = data.get("products") or data.get("items") or []`. -/
def pageItems (d : SearchPage) : List Item :=
  (pyOrItems d.products d.items).getD []

/-- The page loop of `fetch_products_for_search_term` (src/main.py:46-75):
`fuel` pages remain, `page` is the current page number, `products` the
accumulator. An error from `call_api` (modelled by the oracle `api term
page`, which raises on a non-200 status) propagates; an empty item list
breaks the loop. -/
def fetchPagesAux (api : String → ℕ → Except String SearchPage)
    (term : String) :
    ℕ → ℕ → List ProductStub → Except String (List ProductStub)
  | 0, _, products => .ok products
  | fuel + 1, page, products =>
    match api term page with
    | .error e => .error e
    | .ok data =>
      let items := pageItems data
      if items = [] then .ok products
      else
        fetchPagesAux api term fuel (page + 1)
          (products ++ items.filterMap parseItem)

/-- Embedding of `fetch_products_for_search_term` (src/main.py:35-77). -/
def fetch_products_for_search_term (api : String → ℕ → Except String SearchPage)
    (term : String) (max_pages : ℕ) : Except String (List ProductStub) :=
  fetchPagesAux api term max_pages 1 []

/-- A details response with the fields read by `fetch_product_details`. -/
structure DetailsPage where
  ingredients : Option String
  ingredientList : Option String
  rating : Option ℚ
  averageRating : Option ℚ
deriving DecidableEq, Repr

/-- A product-detail record as returned by `fetch_product_details`
(src/main.py:99-103); the opaque `raw` field is not modelled. -/
structure ProductDetail where
  ingredients : Option String
  rating : Option ℚ
deriving DecidableEq, Repr

/-- Embedding of `fetch_product_details` (src/main.py:80-103): the
`call_api` outcome is the argument, and an error propagates in `Except`. -/
def fetch_product_details (resp : Except String DetailsPage) :
    Except String ProductDetail :=
  match resp with
  | .error e => .error e
  | .ok data =>
    .ok { ingredients := pyOrStr data.ingredients data.ingredientList
          rating := pyOrRat data.rating data.averageRating }

/-! ## Pipeline orchestrator (`main`, src/main.py:171-251) -/

/-- The hard-coded search terms (src/main.py:174-179). -/
def search_terms : List String := ["moisturizer", "serum", "cleanser", "foundation"]

/-- The search loop of `main` (src/main.py:184-187), accumulating
`all_products`; an error raised inside `fetch_products_for_search_term`
propagates and aborts the loop (there is no `try` around it). -/
def searchLoop (api : String → ℕ → Except String SearchPage) :
    List String → Except String (List ProductStub)
  | [] => .ok []
  | term :: rest =>
    match fetch_products_for_search_term api term 3 with
    | .error e => .error e
    | .ok prods =>
      match searchLoop api rest with
      | .error e => .error e
      | .ok more => .ok (prods ++ more)

/-- `seen[p["id"]] = p` on an insertion-ordered association list: an
existing key keeps its position and its value is overwritten; a new key is
appended at the end, as in a Python dict. -/
def upsert (m : List (String × ProductStub)) (k : String) (v : ProductStub) :
    List (String × ProductStub) :=
  match m with
  | [] => [(k, v)]
  | (k', v') :: rest =>
    if k' = k then (k, v) :: rest else (k', v') :: upsert rest k v

/-- The deduplication step of `main` (src/main.py:190-193):
`unique_products = list(seen.values())` after last-write-wins inserts. -/
def dedupById (ps : List ProductStub) : List ProductStub :=
  (ps.foldl (fun m p => upsert m p.id p) []).map Prod.snd

/-- An enriched product (`product_data`, src/main.py:207-213). -/
structure EnrichedProduct where
  id : String
  name : Option String
  rating : ℚ
  reviews_count : Option ℤ
  ingredients : Option String
deriving DecidableEq, Repr

/-- `product_data` built from a stub and its detail record
(src/main.py:207-213): the detail rating if present, else the stub
rating; id, name and reviews_count from the stub; ingredients from the
detail record. -/
def mkEnriched (p : ProductStub) (details : ProductDetail) : EnrichedProduct :=
  { id := p.id
    name := p.name
    rating := match details.rating with | some r => r | none => p.rating
    reviews_count := p.reviews_count
    ingredients := details.ingredients }

/-- The detail-fetch loop of `main` (src/main.py:200-214): a failing fetch
is caught, logged and skipped (`continue`); a successful fetch appends an
enriched record. -/
def detailPhase (fetchDetails : String → Except String ProductDetail) :
    List ProductStub → List EnrichedProduct
  | [] => []
  | p :: rest =>
    match fetchDetails p.id with
    | .error _ => detailPhase fetchDetails rest
    | .ok details => mkEnriched p details :: detailPhase fetchDetails rest

/-- The fields of an enriched record that `build_ingredient_stats` reads. -/
def toAProduct (e : EnrichedProduct) : AProduct :=
  { rating := some e.rating, ingredients := e.ingredients }

/-- Embedding of `main` past the credential check (src/main.py:171-251):
search loop, dedup, detail loop, then the two persisted tables (the raw
enriched rows and the ingredient report). An `.error` result models an
uncaught exception aborting the run before any output file is written. -/
def mainPipeline (api : String → ℕ → Except String SearchPage)
    (fetchDetails : String → Except String ProductDetail) :
    Except String (List EnrichedProduct × List IngredientStat) :=
  match searchLoop api search_terms with
  | .error e => .error e
  | .ok all_products =>
    let unique_products := dedupById all_products
    let products_with_details := detailPhase fetchDetails unique_products
    .ok (products_with_details,
      build_ingredient_stats (products_with_details.map toAProduct))

/-! ## Observation functions and spec-side definitions -/

/-- Look up the rating list of an ingredient in the association-list model
of `ingredient_to_ratings`; a missing key reads as the empty list, matching
`defaultdict(list)`. -/
def ratingsOf (m : List (String × List ℚ)) (ing : String) : List ℚ :=
  match m with
  | [] => []
  | (k, rs) :: rest => if k = ing then rs else ratingsOf rest ing

/-- Whether a product contributes its rating to ingredient `ing`: it passes
the aggregator guard (non-absent rating, truthy ingredient string) and `ing`
occurs among its tokens. -/
def contributes (ing : String) (p : AProduct) : Bool :=
  match p.rating, p.ingredients with
  | some _, some s =>
    if s = "" then false
    else decide (ing ∈ normalize_ingredient_string (some s))
  | _, _ => false

/-- The ratings of the products contributing to `ing`, in input order. -/
def contributions (ing : String) (ps : List AProduct) : List ℚ :=
  (ps.filter (fun p => contributes ing p)).filterMap (fun p => p.rating)

/-- A function is a valid enumeration of a Python set built from a list iff
it lists each distinct element exactly once. -/
def ValidSetOrder (uniq : List String → List String) : Prop :=
  ∀ l : List String, (uniq l).Nodup ∧ ∀ x, x ∈ uniq l ↔ x ∈ l

/-- The keys of the `ingredient_to_ratings` association map, in insertion
order. -/
def mapKeys (m : List (String × List ℚ)) : List String := m.map Prod.fst

/-- Modelled from the spec (§4.3): the field-name fallback policy — try
the primary field name, fall back to the alternate, else treat the value
as absent. -/
def fallback {α : Type} (primary alternate : Option α) : Option α :=
  match primary with
  | some v => some v
  | none => alternate

/-- Modelled from the spec (§4.1): the tokenizer stated declaratively —
empty or absent input yields no tokens; otherwise split on each maximal
delimiter run, clean each fragment (trim whitespace, lower-case, strip
non-alphanumeric edges), discard cleaned fragments of length ≤ 2, and
return the rest in original order, duplicates included. -/
def tokenizeSpec (ingredient_str : Option String) : List String :=
  match ingredient_str with
  | none => []
  | some s =>
    if s = "" then []
    else
      (((splitRuns isSepChar s.toList).map cleanFragment).filter
        (fun t => decide (2 < t.length))).map (fun t => String.mk t)

/-- Look up a product stub by id in the `seen` association list. -/
def lookupStub (m : List (String × ProductStub)) (i : String) :
    Option ProductStub :=
  match m with
  | [] => none
  | (k, v) :: rest => if k = i then some v else lookupStub rest i

/-- The `seen` keys, in insertion order. -/
def stubKeys (m : List (String × ProductStub)) : List String := m.map Prod.fst

/-- Every entry of `seen` is stored under its own id. -/
def IdConsistent (m : List (String × ProductStub)) : Prop :=
  ∀ kv ∈ m, kv.2.id = kv.1

/-- The foldl of `seen[p["id"]] = p` over the stub list. -/
def seenFold (ps : List ProductStub) (m : List (String × ProductStub)) :
    List (String × ProductStub) :=
  ps.foldl (fun acc p => upsert acc p.id p) m

theorem validSetOrder_dedup : ValidSetOrder List.dedup := by
  intro l
  exact ⟨l.nodup_dedup, fun x => List.mem_dedup⟩

theorem validSetOrder_dedup_reverse :
    ValidSetOrder (fun l => l.dedup.reverse) := by
  intro l
  refine ⟨List.nodup_reverse.mpr l.nodup_dedup, fun x => ?_⟩
  rw [List.mem_reverse, List.mem_dedup]

/-! ## Aggregator lemmas -/

@[simp] theorem ratingsOf_nil (x : String) : ratingsOf [] x = [] := rfl

@[simp] theorem ratingsOf_cons (k : String) (rs : List ℚ)
    (rest : List (String × List ℚ)) (x : String) :
    ratingsOf ((k, rs) :: rest) x = if k = x then rs else ratingsOf rest x :=
  rfl

theorem ratingsOf_addRating (m : List (String × List ℚ)) (ing x : String)
    (r : ℚ) :
    ratingsOf (addRating m ing r) x =
      if ing = x then ratingsOf m x ++ [r] else ratingsOf m x := by
  induction m with
  | nil =>
    by_cases h : ing = x
    · subst h; simp [addRating]
    · simp [addRating, h]
  | cons kv rest ih =>
    obtain ⟨k, rs⟩ := kv
    by_cases hk : k = ing
    · subst hk
      by_cases h : k = x
      · subst h; simp [addRating]
      · simp [addRating, h]
    · by_cases h : k = x
      · subst h
        have hinx : ¬ ing = k := fun hh => hk hh.symm
        simp [addRating, hk, hinx]
      · simp [addRating, hk, h, ih]

theorem ratingsOf_foldl_addRating (us : List String) (hu : us.Nodup)
    (m : List (String × List ℚ)) (r : ℚ) (x : String) :
    ratingsOf (us.foldl (fun acc ing => addRating acc ing r) m) x =
      if x ∈ us then ratingsOf m x ++ [r] else ratingsOf m x := by
  induction us generalizing m with
  | nil => simp
  | cons i rest ih =>
    have hrest : rest.Nodup := hu.of_cons
    have hi : i ∉ rest := (List.nodup_cons.mp hu).1
    rw [List.foldl_cons, ih hrest]
    by_cases hx : x ∈ rest
    · have hxi : ¬ i = x := fun h => hi (h ▸ hx)
      simp [hx, ratingsOf_addRating, hxi, List.mem_cons]
    · by_cases hxi : x = i
      · subst hxi
        simp [hx, ratingsOf_addRating]
      · have hix : ¬ i = x := fun h => hxi h.symm
        simp [hx, ratingsOf_addRating, hix, hxi, List.mem_cons]

theorem ratingsOf_statsStep (uniq : List String → List String)
    (hu : ValidSetOrder uniq) (m : List (String × List ℚ)) (p : AProduct)
    (x : String) :
    ratingsOf (statsStep uniq m p) x =
      ratingsOf m x ++ (if contributes x p then p.rating.toList else []) := by
  unfold statsStep contributes
  cases hr : p.rating with
  | none => simp
  | some r =>
    cases hs : p.ingredients with
    | none => simp
    | some s =>
      by_cases hempty : s = ""
      · simp [hempty]
      · simp only [hempty, if_false]
        rw [ratingsOf_foldl_addRating _
          (hu (normalize_ingredient_string (some s))).1]
        have hmem := (hu (normalize_ingredient_string (some s))).2 x
        by_cases hx : x ∈ normalize_ingredient_string (some s)
        · have h1 : x ∈ uniq (normalize_ingredient_string (some s)) :=
            hmem.mpr hx
          simp [h1, hx, Option.toList]
        · have h1 : x ∉ uniq (normalize_ingredient_string (some s)) :=
            fun h => hx (hmem.mp h)
          simp [h1, hx]

theorem ratingsOf_foldl_statsStep (uniq : List String → List String)
    (hu : ValidSetOrder uniq) (ps : List AProduct)
    (m : List (String × List ℚ)) (x : String) :
    ratingsOf (ps.foldl (statsStep uniq) m) x =
      ratingsOf m x ++ contributions x ps := by
  induction ps generalizing m with
  | nil => simp [contributions]
  | cons p rest ih =>
    rw [List.foldl_cons, ih, ratingsOf_statsStep uniq hu]
    unfold contributions
    by_cases hc : contributes x p
    · cases hr : p.rating with
      | none => simp [contributes, hr] at hc
      | some r => simp [hc, hr, List.filter_cons, List.filterMap_cons]
    · simp [hc, List.filter_cons]

/-- The content of the `ingredient_to_ratings` mapping: each ingredient's
list holds exactly the ratings of its contributing products, in input
order, independently of the set-iteration order. -/
theorem ratingsOf_ingredientMapWith (uniq : List String → List String)
    (hu : ValidSetOrder uniq) (ps : List AProduct) (x : String) :
    ratingsOf (ingredientMapWith uniq ps) x = contributions x ps := by
  unfold ingredientMapWith
  rw [ratingsOf_foldl_statsStep uniq hu]
  simp [ratingsOf]

@[simp] theorem mapKeys_nil : mapKeys [] = [] := rfl

@[simp] theorem mapKeys_cons (k : String) (v : List ℚ)
    (rest : List (String × List ℚ)) :
    mapKeys ((k, v) :: rest) = k :: mapKeys rest := rfl

theorem mem_mapKeys_addRating (m : List (String × List ℚ)) (ing x : String)
    (r : ℚ) :
    x ∈ mapKeys (addRating m ing r) ↔ x ∈ mapKeys m ∨ x = ing := by
  induction m with
  | nil => simp [addRating, eq_comm]
  | cons kv rest ih =>
    obtain ⟨k, rs⟩ := kv
    by_cases hk : k = ing
    · subst hk
      rw [show addRating ((k, rs) :: rest) k r = (k, rs ++ [r]) :: rest
        from by simp [addRating]]
      simp only [mapKeys_cons, List.mem_cons]
      tauto
    · simp only [addRating, if_neg hk, mapKeys_cons, List.mem_cons, ih]
      tauto

theorem nodup_mapKeys_addRating (m : List (String × List ℚ)) (ing : String)
    (r : ℚ) (h : (mapKeys m).Nodup) : (mapKeys (addRating m ing r)).Nodup := by
  induction m with
  | nil => simp [addRating]
  | cons kv rest ih =>
    obtain ⟨k, rs⟩ := kv
    rw [mapKeys_cons, List.nodup_cons] at h
    by_cases hk : k = ing
    · subst hk
      rw [show addRating ((k, rs) :: rest) k r = (k, rs ++ [r]) :: rest
        from by simp [addRating]]
      rw [mapKeys_cons, List.nodup_cons]
      exact h
    · simp only [addRating, if_neg hk, mapKeys_cons, List.nodup_cons]
      refine ⟨?_, ih h.2⟩
      intro hmem
      rcases (mem_mapKeys_addRating rest ing k r).mp hmem with h1 | h1
      · exact h.1 h1
      · exact hk h1

theorem nodup_mapKeys_foldl_addRating (us : List String)
    (m : List (String × List ℚ)) (r : ℚ) (h : (mapKeys m).Nodup) :
    (mapKeys (us.foldl (fun acc ing => addRating acc ing r) m)).Nodup := by
  induction us generalizing m with
  | nil => exact h
  | cons i rest ih =>
    exact ih _ (nodup_mapKeys_addRating m i r h)

theorem nodup_mapKeys_statsStep (uniq : List String → List String)
    (m : List (String × List ℚ)) (p : AProduct)
    (h : (mapKeys m).Nodup) : (mapKeys (statsStep uniq m p)).Nodup := by
  unfold statsStep
  cases p.rating with
  | none => exact h
  | some r =>
    cases p.ingredients with
    | none => exact h
    | some s =>
      by_cases hempty : s = ""
      · simpa [hempty] using h
      · simpa [hempty] using nodup_mapKeys_foldl_addRating _ m r h

theorem nodup_mapKeys_ingredientMapWith (uniq : List String → List String)
    (ps : List AProduct) : (mapKeys (ingredientMapWith uniq ps)).Nodup := by
  unfold ingredientMapWith
  generalize hm : ([] : List (String × List ℚ)) = m
  have h : (mapKeys m).Nodup := by simp [← hm, mapKeys]
  clear hm
  induction ps generalizing m with
  | nil => exact h
  | cons p rest ih =>
    exact ih _ (nodup_mapKeys_statsStep uniq m p h)

theorem values_ne_nil_addRating (m : List (String × List ℚ)) (ing : String)
    (r : ℚ) (h : ∀ kv ∈ m, kv.2 ≠ []) :
    ∀ kv ∈ addRating m ing r, kv.2 ≠ [] := by
  induction m with
  | nil =>
    intro kv hkv
    rw [show addRating [] ing r = [(ing, [r])] from rfl,
      List.mem_singleton] at hkv
    subst hkv
    simp
  | cons kv0 rest ih =>
    obtain ⟨k, rs⟩ := kv0
    by_cases hk : k = ing
    · intro kv hkv
      rw [show addRating ((k, rs) :: rest) ing r =
        (k, rs ++ [r]) :: rest from by simp [addRating, hk],
        List.mem_cons] at hkv
      rcases hkv with h1 | h1
      · subst h1; simp
      · exact h kv (List.mem_cons_of_mem _ h1)
    · intro kv hkv
      rw [show addRating ((k, rs) :: rest) ing r =
        (k, rs) :: addRating rest ing r from by simp [addRating, hk],
        List.mem_cons] at hkv
      rcases hkv with h1 | h1
      · subst h1
        exact h (k, rs) (List.mem_cons_self _ _)
      · exact ih (fun kv' hkv' => h kv' (List.mem_cons_of_mem _ hkv')) kv h1

theorem values_ne_nil_foldl_addRating (us : List String)
    (m : List (String × List ℚ)) (r : ℚ) (h : ∀ kv ∈ m, kv.2 ≠ []) :
    ∀ kv ∈ us.foldl (fun acc ing => addRating acc ing r) m, kv.2 ≠ [] := by
  induction us generalizing m with
  | nil => exact h
  | cons i rest ih =>
    exact ih _ (values_ne_nil_addRating m i r h)

theorem values_ne_nil_statsStep (uniq : List String → List String)
    (m : List (String × List ℚ)) (p : AProduct)
    (h : ∀ kv ∈ m, kv.2 ≠ []) : ∀ kv ∈ statsStep uniq m p, kv.2 ≠ [] := by
  unfold statsStep
  cases p.rating with
  | none => exact h
  | some r =>
    cases p.ingredients with
    | none => exact h
    | some s =>
      by_cases hempty : s = ""
      · simpa [hempty] using h
      · simpa [hempty] using values_ne_nil_foldl_addRating _ m r h

theorem values_ne_nil_ingredientMapWith (uniq : List String → List String)
    (ps : List AProduct) :
    ∀ kv ∈ ingredientMapWith uniq ps, kv.2 ≠ [] := by
  unfold ingredientMapWith
  generalize hm : ([] : List (String × List ℚ)) = m
  have h : ∀ kv ∈ m, kv.2 ≠ [] := by simp [← hm]
  clear hm
  induction ps generalizing m with
  | nil => exact h
  | cons p rest ih =>
    exact ih _ (values_ne_nil_statsStep uniq m p h)

/-- With duplicate-free keys, pair membership in the map is determined by
key membership and lookup. -/
theorem mem_iff_ratingsOf (m : List (String × List ℚ))
    (hnd : (mapKeys m).Nodup) (k : String) (rs : List ℚ) :
    (k, rs) ∈ m ↔ k ∈ mapKeys m ∧ ratingsOf m k = rs := by
  induction m with
  | nil => simp
  | cons kv rest ih =>
    obtain ⟨k', rs'⟩ := kv
    rw [mapKeys_cons, List.nodup_cons] at hnd
    obtain ⟨hnotin, hrest⟩ := hnd
    rw [List.mem_cons, mapKeys_cons, List.mem_cons, ratingsOf_cons]
    by_cases hk : k' = k
    · rw [if_pos hk]
      constructor
      · rintro (h | h)
        · rw [Prod.mk.injEq] at h
          exact ⟨Or.inl h.1, h.2.symm⟩
        · have : k ∈ mapKeys rest := List.mem_map_of_mem Prod.fst h
          exact absurd (hk ▸ this) hnotin
      · rintro ⟨-, h⟩
        exact Or.inl (by rw [Prod.mk.injEq]; exact ⟨hk.symm, h.symm⟩)
    · rw [if_neg hk, ih hrest]
      constructor
      · rintro (h | h)
        · rw [Prod.mk.injEq] at h
          exact absurd h.1.symm hk
        · exact ⟨Or.inr h.1, h.2⟩
      · rintro ⟨hmem, hlook⟩
        rcases hmem with h | h
        · exact absurd h.symm hk
        · exact Or.inr ⟨h, hlook⟩

/-- With non-empty value lists, key membership is detected by lookup. -/
theorem mem_mapKeys_iff_ratingsOf_ne (m : List (String × List ℚ))
    (hne : ∀ kv ∈ m, kv.2 ≠ []) (x : String) :
    x ∈ mapKeys m ↔ ratingsOf m x ≠ [] := by
  induction m with
  | nil => simp
  | cons kv rest ih =>
    obtain ⟨k, rs⟩ := kv
    rw [mapKeys_cons, List.mem_cons, ratingsOf_cons]
    by_cases hk : k = x
    · have : rs ≠ [] := hne (k, rs) (List.mem_cons_self _ _)
      rw [if_pos hk]
      simp [hk.symm, this]
    · have hrest := ih (fun kv' h => hne kv' (List.mem_cons_of_mem _ h))
      rw [if_neg hk, ← hrest]
      constructor
      · rintro (h | h)
        · exact absurd h.symm hk
        · exact h
      · intro h
        exact Or.inr h

/-- Membership in the pre-sort statistics rows. -/
theorem mem_statsRows (m : List (String × List ℚ)) (row : IngredientStat) :
    row ∈ statsRows m ↔ ∃ k rs, (k, rs) ∈ m ∧ 5 ≤ rs.length ∧
      row = ⟨k, rs.length, round3 (pyMean rs)⟩ := by
  unfold statsRows
  rw [List.mem_filterMap]
  constructor
  · rintro ⟨⟨k, rs⟩, hmem, hf⟩
    by_cases h5 : rs.length < 5
    · simp [h5] at hf
    · simp only [h5, if_false, Option.some.injEq] at hf
      exact ⟨k, rs, hmem, by omega, hf.symm⟩
  · rintro ⟨k, rs, hmem, h5, hrow⟩
    refine ⟨(k, rs), hmem, ?_⟩
    have h5' : ¬ rs.length < 5 := by omega
    simp [h5', hrow]

theorem mem_build_stats_with (uniq : List String → List String)
    (ps : List AProduct) (row : IngredientStat) :
    row ∈ build_stats_with uniq ps ↔
      row ∈ statsRows (ingredientMapWith uniq ps) := by
  unfold build_stats_with
  exact List.mem_insertionSort StatGE

theorem statGE_of_statKey_eq (a b : IngredientStat)
    (h : statKey a = statKey b) : StatGE a b := by
  unfold statKey at h
  rw [Prod.mk.injEq] at h
  exact Or.inr ⟨h.1.symm, le_of_eq h.2.symm⟩

/-! ## Tokenizer refinement (C3) -/

theorem collectTokens_eq_filter_map (parts : List (List Char)) :
    collectTokens parts =
      ((parts.map cleanFragment).filter
        (fun t => decide (2 < t.length))).map (fun t => String.mk t) := by
  induction parts with
  | nil => rfl
  | cons part rest ih =>
    by_cases h : 2 < (cleanFragment part).length
    · simp [collectTokens, List.filter_cons, h, ih]
    · simp [collectTokens, List.filter_cons, h, ih]

/-! ## Deduplication lemmas (C6) -/

@[simp] theorem lookupStub_nil (i : String) : lookupStub [] i = none := rfl

@[simp] theorem lookupStub_cons (k : String) (v : ProductStub)
    (rest : List (String × ProductStub)) (i : String) :
    lookupStub ((k, v) :: rest) i =
      if k = i then some v else lookupStub rest i := rfl

theorem lookupStub_upsert (m : List (String × ProductStub))
    (k : String) (v : ProductStub) (i : String) :
    lookupStub (upsert m k v) i =
      if k = i then some v else lookupStub m i := by
  induction m with
  | nil => rfl
  | cons kv rest ih =>
    obtain ⟨k', v'⟩ := kv
    by_cases hk : k' = k
    · subst hk
      rw [show upsert ((k', v') :: rest) k' v = (k', v) :: rest
        from by simp [upsert]]
      by_cases hi : k' = i
      · simp [hi]
      · simp [hi]
    · rw [show upsert ((k', v') :: rest) k v = (k', v') :: upsert rest k v
        from by simp [upsert, hk]]
      by_cases hi : k' = i
      · have hki : ¬ k = i := fun h => hk (hi.trans h.symm)
        simp [hi, hki]
      · simp [hi, ih]

@[simp] theorem stubKeys_nil : stubKeys [] = [] := rfl

@[simp] theorem stubKeys_cons (k : String) (v : ProductStub)
    (rest : List (String × ProductStub)) :
    stubKeys ((k, v) :: rest) = k :: stubKeys rest := rfl

theorem mem_stubKeys_upsert (m : List (String × ProductStub))
    (k x : String) (v : ProductStub) :
    x ∈ stubKeys (upsert m k v) ↔ x ∈ stubKeys m ∨ x = k := by
  induction m with
  | nil => simp [upsert, eq_comm]
  | cons kv rest ih =>
    obtain ⟨k', v'⟩ := kv
    by_cases hk : k' = k
    · subst hk
      rw [show upsert ((k', v') :: rest) k' v = (k', v) :: rest
        from by simp [upsert]]
      simp only [stubKeys_cons, List.mem_cons]
      tauto
    · rw [show upsert ((k', v') :: rest) k v = (k', v') :: upsert rest k v
        from by simp [upsert, hk]]
      simp only [stubKeys_cons, List.mem_cons, ih]
      tauto

theorem nodup_stubKeys_upsert (m : List (String × ProductStub))
    (k : String) (v : ProductStub) (h : (stubKeys m).Nodup) :
    (stubKeys (upsert m k v)).Nodup := by
  induction m with
  | nil => simp [upsert]
  | cons kv rest ih =>
    obtain ⟨k', v'⟩ := kv
    rw [stubKeys_cons, List.nodup_cons] at h
    by_cases hk : k' = k
    · subst hk
      rw [show upsert ((k', v') :: rest) k' v = (k', v) :: rest
        from by simp [upsert]]
      rw [stubKeys_cons, List.nodup_cons]
      exact h
    · rw [show upsert ((k', v') :: rest) k v = (k', v') :: upsert rest k v
        from by simp [upsert, hk]]
      rw [stubKeys_cons, List.nodup_cons]
      refine ⟨?_, ih h.2⟩
      intro hmem
      rcases (mem_stubKeys_upsert rest k k' v).mp hmem with h1 | h1
      · exact h.1 h1
      · exact hk h1

theorem idConsistent_upsert (m : List (String × ProductStub))
    (k : String) (v : ProductStub) (hv : v.id = k) (h : IdConsistent m) :
    IdConsistent (upsert m k v) := by
  induction m with
  | nil =>
    intro kv hkv
    rw [show upsert [] k v = [(k, v)] from rfl, List.mem_singleton] at hkv
    subst hkv
    exact hv
  | cons kv0 rest ih =>
    obtain ⟨k', v'⟩ := kv0
    by_cases hk : k' = k
    · intro kv hkv
      rw [show upsert ((k', v') :: rest) k v = (k, v) :: rest
        from by simp [upsert, hk], List.mem_cons] at hkv
      rcases hkv with h1 | h1
      · subst h1; exact hv
      · exact h kv (List.mem_cons_of_mem _ h1)
    · intro kv hkv
      rw [show upsert ((k', v') :: rest) k v = (k', v') :: upsert rest k v
        from by simp [upsert, hk], List.mem_cons] at hkv
      rcases hkv with h1 | h1
      · subst h1
        exact h (k', v') (List.mem_cons_self _ _)
      · exact ih (fun kv' hkv' => h kv' (List.mem_cons_of_mem _ hkv')) kv h1

theorem nodup_stubKeys_seenFold (ps : List ProductStub)
    (m : List (String × ProductStub)) (h : (stubKeys m).Nodup) :
    (stubKeys (seenFold ps m)).Nodup := by
  induction ps generalizing m with
  | nil => exact h
  | cons p rest ih => exact ih _ (nodup_stubKeys_upsert m p.id p h)

theorem idConsistent_seenFold (ps : List ProductStub)
    (m : List (String × ProductStub)) (h : IdConsistent m) :
    IdConsistent (seenFold ps m) := by
  induction ps generalizing m with
  | nil => exact h
  | cons p rest ih => exact ih _ (idConsistent_upsert m p.id p rfl h)

theorem filter_map_snd_eq_nil (m : List (String × ProductStub)) (i : String)
    (hid : IdConsistent m) (hnot : i ∉ stubKeys m) :
    (m.map Prod.snd).filter (fun p => decide (p.id = i)) = [] := by
  rw [List.filter_eq_nil_iff]
  intro p hp
  rw [List.mem_map] at hp
  obtain ⟨⟨k, v⟩, hkv, hv⟩ := hp
  have hk : p.id = k := by rw [← hv]; exact hid (k, v) hkv
  intro hdec
  have : p.id = i := of_decide_eq_true hdec
  exact hnot (this ▸ hk ▸ List.mem_map_of_mem Prod.fst hkv)

theorem filter_map_snd_eq_lookup (m : List (String × ProductStub))
    (i : String) (hnd : (stubKeys m).Nodup) (hid : IdConsistent m) :
    (m.map Prod.snd).filter (fun p => decide (p.id = i)) =
      (lookupStub m i).toList := by
  induction m with
  | nil => rfl
  | cons kv rest ih =>
    obtain ⟨k, v⟩ := kv
    rw [stubKeys_cons, List.nodup_cons] at hnd
    have hvk : v.id = k := hid (k, v) (List.mem_cons_self _ _)
    have hidrest : IdConsistent rest :=
      fun kv' h => hid kv' (List.mem_cons_of_mem _ h)
    rw [List.map_cons, List.filter_cons, lookupStub_cons]
    by_cases hk : k = i
    · have : decide (v.id = i) = true := decide_eq_true (hvk.trans hk)
      rw [this, if_pos hk]
      have hrest : (rest.map Prod.snd).filter
          (fun p => decide (p.id = i)) = [] :=
        filter_map_snd_eq_nil rest i hidrest (hk ▸ hnd.1)
      rw [hrest]
      rfl
    · have : decide (v.id = i) = false :=
        decide_eq_false (fun h => hk (hvk.symm.trans h))
      rw [this, if_neg hk]
      exact ih hnd.2 hidrest

theorem getLast?_cons_or (a : α) (l : List α) :
    (a :: l).getLast? =
      match l.getLast? with | some v => some v | none => some a := by
  cases l with
  | nil => rfl
  | cons b l' =>
    rw [List.getLast?_cons_cons]
    have hne : (b :: l').getLast? ≠ none := by
      rw [Ne, List.getLast?_eq_none_iff]
      exact List.cons_ne_nil b l'
    obtain ⟨v, hv⟩ := Option.ne_none_iff_exists'.mp hne
    rw [hv]

theorem lookupStub_seenFold (ps : List ProductStub)
    (m : List (String × ProductStub)) (i : String) :
    lookupStub (seenFold ps m) i =
      match (ps.filter (fun p => decide (p.id = i))).getLast? with
      | some v => some v
      | none => lookupStub m i := by
  induction ps generalizing m with
  | nil => rfl
  | cons p rest ih =>
    rw [show seenFold (p :: rest) m = seenFold rest (upsert m p.id p)
      from rfl, ih, List.filter_cons]
    by_cases hp : p.id = i
    · rw [decide_eq_true hp, if_pos rfl, getLast?_cons_or]
      cases h : (rest.filter (fun p => decide (p.id = i))).getLast? with
      | some v => rfl
      | none =>
        simp only [lookupStub_upsert, if_pos hp]
    · rw [decide_eq_false hp]
      simp only [Bool.false_eq_true, if_false]
      cases h : (rest.filter (fun p => decide (p.id = i))).getLast? with
      | some v => rfl
      | none =>
        simp only [lookupStub_upsert, if_neg hp]

theorem detailPhase_cons (f : String → Except String ProductDetail)
    (p : ProductStub) (rest : List ProductStub) :
    detailPhase f (p :: rest) =
      match f p.id with
      | Except.error _ => detailPhase f rest
      | Except.ok d => mkEnriched p d :: detailPhase f rest := rfl

theorem detailPhase_cons_error (f : String → Except String ProductDetail)
    (p : ProductStub) (rest : List ProductStub) (e : String)
    (h : f p.id = Except.error e) :
    detailPhase f (p :: rest) = detailPhase f rest := by
  rw [detailPhase_cons, h]

theorem detailPhase_cons_ok (f : String → Except String ProductDetail)
    (p : ProductStub) (rest : List ProductStub) (d : ProductDetail)
    (h : f p.id = Except.ok d) :
    detailPhase f (p :: rest) = mkEnriched p d :: detailPhase f rest := by
  rw [detailPhase_cons, h]

/-! ## Claim theorems -/

/-- C1: for any valid set-iteration order, the rating list accumulated for
an ingredient token equals, in input order, the ratings of exactly those
products that pass the guard (non-absent rating, non-empty ingredient
string) and whose token list contains the token — one rating per
contributing product, even when the token repeats in that product's raw
text; products lacking a rating or an ingredient string contribute
nothing. -/
theorem aggregator_ratings_eq_contributions
    (uniq : List String → List String) (hu : ValidSetOrder uniq)
    (ps : List AProduct) (ing : String) :
    ratingsOf (ingredientMapWith uniq ps) ing = contributions ing ps :=
  ratingsOf_ingredientMapWith uniq hu ps ing

/-- Witness for C1 at a concrete input: the first product repeats the token
"water", the second lacks a rating, the third has no ingredient string and
the fourth an empty one, so "water" collects exactly one rating sample. -/
theorem aggregator_ratings_eq_contributions_witness :
    ratingsOf
        (ingredientMapWith List.dedup
          [⟨some 4, some "Water, water, Aloe"⟩, ⟨none, some "water"⟩,
           ⟨some 3, none⟩, ⟨some 2, some ""⟩]) "water" = [4] ∧
      contributions "water"
          [⟨some 4, some "Water, water, Aloe"⟩, ⟨none, some "water"⟩,
           ⟨some 3, none⟩, ⟨some 2, some ""⟩] = [4] :=
  ⟨(aggregator_ratings_eq_contributions List.dedup validSetOrder_dedup
        [⟨some 4, some "Water, water, Aloe"⟩, ⟨none, some "water"⟩,
         ⟨some 3, none⟩, ⟨some 2, some ""⟩] "water").trans
      (by with_unfolding_all decide),
    by with_unfolding_all decide⟩

/-- C2: a row for an ingredient is emitted iff the ingredient has at least
5 contributing ratings, and every emitted row carries the number of
contributing ratings and their mean rounded to 3 decimals. -/
theorem stats_rows_iff_five_contributions (ps : List AProduct) (ing : String) :
    ((∃ row ∈ build_ingredient_stats ps, row.ingredient = ing) ↔
      5 ≤ (contributions ing ps).length) ∧
    (∀ row ∈ build_ingredient_stats ps,
      row.product_count = (contributions row.ingredient ps).length ∧
      row.avg_rating_with_ingredient =
        round3 (pyMean (contributions row.ingredient ps))) := by
  have hnd := nodup_mapKeys_ingredientMapWith List.dedup ps
  have hne := values_ne_nil_ingredientMapWith List.dedup ps
  have hrat : ∀ x, ratingsOf (ingredientMapWith List.dedup ps) x =
      contributions x ps :=
    fun x => ratingsOf_ingredientMapWith List.dedup validSetOrder_dedup ps x
  have hmem_build : ∀ row : IngredientStat,
      row ∈ build_ingredient_stats ps ↔
        row ∈ statsRows (ingredientMapWith List.dedup ps) :=
    fun row => mem_build_stats_with List.dedup ps row
  constructor
  · constructor
    · rintro ⟨row, hrow, hing⟩
      rw [hmem_build, mem_statsRows] at hrow
      obtain ⟨k, rs, hmem, h5, hroweq⟩ := hrow
      have hk : ing = k := by rw [← hing, hroweq]
      have hlook := ((mem_iff_ratingsOf _ hnd k rs).mp hmem).2
      rw [hk, ← hrat k, hlook]
      exact h5
    · intro h5
      have hne_rat : ratingsOf (ingredientMapWith List.dedup ps) ing ≠ [] := by
        rw [hrat ing]
        intro hnil
        rw [hnil] at h5
        simp at h5
      have hkmem := (mem_mapKeys_iff_ratingsOf_ne _ hne ing).mpr hne_rat
      have hmem := (mem_iff_ratingsOf _ hnd ing
        (ratingsOf (ingredientMapWith List.dedup ps) ing)).mpr ⟨hkmem, rfl⟩
      refine ⟨⟨ing, (ratingsOf (ingredientMapWith List.dedup ps) ing).length,
        round3 (pyMean (ratingsOf (ingredientMapWith List.dedup ps) ing))⟩,
        ?_, rfl⟩
      rw [hmem_build, mem_statsRows]
      exact ⟨ing, _, hmem, by rw [hrat ing]; exact h5, rfl⟩
  · intro row hrow
    rw [hmem_build, mem_statsRows] at hrow
    obtain ⟨k, rs, hmem, h5, hroweq⟩ := hrow
    have hlook := ((mem_iff_ratingsOf _ hnd k rs).mp hmem).2
    have hing : row.ingredient = k := by rw [hroweq]
    have hcon : contributions row.ingredient ps = rs := by
      rw [hing, ← hrat k, hlook]
    rw [hcon, hroweq]
    exact ⟨rfl, rfl⟩

/-- Witness for C2 at the spec's end-to-end example: "hyaluronic acid"
appears in 5 of 6 products with mean 4.12. -/
theorem stats_rows_iff_five_contributions_witness :
    ((∃ row ∈ build_ingredient_stats
        [⟨some 4, some "hyaluronic acid"⟩, ⟨some (9/2), some "hyaluronic acid"⟩,
         ⟨some (21/5), some "hyaluronic acid"⟩, ⟨some (19/5), some "hyaluronic acid"⟩,
         ⟨some (41/10), some "hyaluronic acid"⟩, ⟨some 1, some "water"⟩],
        row.ingredient = "hyaluronic acid") ↔
      5 ≤ (contributions "hyaluronic acid"
        [⟨some 4, some "hyaluronic acid"⟩, ⟨some (9/2), some "hyaluronic acid"⟩,
         ⟨some (21/5), some "hyaluronic acid"⟩, ⟨some (19/5), some "hyaluronic acid"⟩,
         ⟨some (41/10), some "hyaluronic acid"⟩, ⟨some 1, some "water"⟩]).length) ∧
    (∀ row ∈ build_ingredient_stats
        [⟨some 4, some "hyaluronic acid"⟩, ⟨some (9/2), some "hyaluronic acid"⟩,
         ⟨some (21/5), some "hyaluronic acid"⟩, ⟨some (19/5), some "hyaluronic acid"⟩,
         ⟨some (41/10), some "hyaluronic acid"⟩, ⟨some 1, some "water"⟩],
      row.product_count = (contributions row.ingredient
        [⟨some 4, some "hyaluronic acid"⟩, ⟨some (9/2), some "hyaluronic acid"⟩,
         ⟨some (21/5), some "hyaluronic acid"⟩, ⟨some (19/5), some "hyaluronic acid"⟩,
         ⟨some (41/10), some "hyaluronic acid"⟩, ⟨some 1, some "water"⟩]).length ∧
      row.avg_rating_with_ingredient =
        round3 (pyMean (contributions row.ingredient
          [⟨some 4, some "hyaluronic acid"⟩, ⟨some (9/2), some "hyaluronic acid"⟩,
           ⟨some (21/5), some "hyaluronic acid"⟩, ⟨some (19/5), some "hyaluronic acid"⟩,
           ⟨some (41/10), some "hyaluronic acid"⟩, ⟨some 1, some "water"⟩]))) :=
  stats_rows_iff_five_contributions
    [⟨some 4, some "hyaluronic acid"⟩, ⟨some (9/2), some "hyaluronic acid"⟩,
     ⟨some (21/5), some "hyaluronic acid"⟩, ⟨some (19/5), some "hyaluronic acid"⟩,
     ⟨some (41/10), some "hyaluronic acid"⟩, ⟨some 1, some "water"⟩]
    "hyaluronic acid"

/-- C4: the emitted list is sorted by the composite key
(average rating, product count) descending, and within each fixed composite
key the rows appear exactly as in the pre-sort row list, i.e. in the
insertion order of the underlying `ingredient_to_ratings` mapping. -/
theorem build_stats_sorted_and_stable (uniq : List String → List String)
    (ps : List AProduct) :
    (build_stats_with uniq ps).Pairwise StatGE ∧
    ∀ key : ℚ × ℕ,
      (build_stats_with uniq ps).filter (fun row => decide (statKey row = key)) =
        (statsRows (ingredientMapWith uniq ps)).filter
          (fun row => decide (statKey row = key)) := by
  constructor
  · exact List.sorted_insertionSort StatGE _
  · intro key
    rw [show build_stats_with uniq ps =
      (statsRows (ingredientMapWith uniq ps)).insertionSort StatGE from rfl]
    set pre := statsRows (ingredientMapWith uniq ps) with hpre
    set c := pre.filter (fun row => decide (statKey row = key)) with hc
    have hall : ∀ x ∈ c, statKey x = key := by
      intro x hx
      exact of_decide_eq_true (List.mem_filter.mp hx).2
    have hpair : c.Pairwise StatGE :=
      List.pairwise_of_forall_mem_list (fun a ha b hb =>
        statGE_of_statKey_eq a b (by rw [hall a ha, hall b hb]))
    have hsub : List.Sublist c pre := List.filter_sublist pre
    have hsub2 : List.Sublist c (pre.insertionSort StatGE) :=
      List.sublist_insertionSort hpair hsub
    have hcf : c.filter (fun row => decide (statKey row = key)) = c :=
      List.filter_eq_self.mpr (fun a ha => decide_eq_true (hall a ha))
    have hsub3 : List.Sublist c ((pre.insertionSort StatGE).filter
        (fun row => decide (statKey row = key))) := by
      have h := hsub2.filter (fun row => decide (statKey row = key))
      rwa [hcf] at h
    have hperm : ((pre.insertionSort StatGE).filter
        (fun row => decide (statKey row = key))).Perm c :=
      (List.perm_insertionSort StatGE pre).filter _
    exact (hsub3.eq_of_length hperm.length_eq.symm).symm

/-- C5 counterexample: on a fixed input, two valid iteration orders of the
per-product token set (first-occurrence order and its reverse — Python
makes no promise about which a `set` exhibits across runs) change the
relative order of the two tied output rows, so the claimed independence
from set-iteration order fails. -/
theorem build_stats_set_order_dependent :
    build_stats_with List.dedup
        (List.replicate 5 ⟨some 4, some "aaa, bbb"⟩) ≠
      build_stats_with (fun l => l.dedup.reverse)
        (List.replicate 5 ⟨some 4, some "aaa, bbb"⟩) := by
  with_unfolding_all decide

/-- C5 amended: the aggregator is deterministic up to ties — for a fixed
input, any two valid set-iteration orders produce outputs that are
permutations of one another (each sorted by the composite key, by C4), so
the output is unique except for the relative order of rows with equal
composite sort key. -/
theorem build_stats_perm_of_validSetOrders
    (u1 u2 : List String → List String)
    (h1 : ValidSetOrder u1) (h2 : ValidSetOrder u2) (ps : List AProduct) :
    (build_stats_with u1 ps).Perm (build_stats_with u2 ps) := by
  have hnd1 := nodup_mapKeys_ingredientMapWith u1 ps
  have hnd2 := nodup_mapKeys_ingredientMapWith u2 ps
  have hm : (ingredientMapWith u1 ps).Perm (ingredientMapWith u2 ps) := by
    have hne1 := values_ne_nil_ingredientMapWith u1 ps
    have hne2 := values_ne_nil_ingredientMapWith u2 ps
    have hnod1 : (ingredientMapWith u1 ps).Nodup :=
      List.Nodup.of_map Prod.fst hnd1
    have hnod2 : (ingredientMapWith u2 ps).Nodup :=
      List.Nodup.of_map Prod.fst hnd2
    rw [List.perm_ext_iff_of_nodup hnod1 hnod2]
    rintro ⟨k, rs⟩
    rw [mem_iff_ratingsOf _ hnd1, mem_iff_ratingsOf _ hnd2,
      mem_mapKeys_iff_ratingsOf_ne _ hne1, mem_mapKeys_iff_ratingsOf_ne _ hne2,
      ratingsOf_ingredientMapWith u1 h1, ratingsOf_ingredientMapWith u2 h2]
  have hrows : (statsRows (ingredientMapWith u1 ps)).Perm
      (statsRows (ingredientMapWith u2 ps)) := hm.filterMap _
  exact ((List.perm_insertionSort StatGE
      (statsRows (ingredientMapWith u1 ps))).trans hrows).trans
    (List.perm_insertionSort StatGE
      (statsRows (ingredientMapWith u2 ps))).symm

/-- Witness for the amended C5 at the counterexample's input: the two
outputs there are permutations of each other. -/
theorem build_stats_perm_of_validSetOrders_witness :
    (build_stats_with List.dedup
        (List.replicate 5 ⟨some 4, some "aaa, bbb"⟩)).Perm
      (build_stats_with (fun l => l.dedup.reverse)
        (List.replicate 5 ⟨some 4, some "aaa, bbb"⟩)) :=
  build_stats_perm_of_validSetOrders List.dedup (fun l => l.dedup.reverse)
    validSetOrder_dedup validSetOrder_dedup_reverse
    (List.replicate 5 ⟨some 4, some "aaa, bbb"⟩)

/-- C3: the tokenizer yields no tokens for absent or empty input, and in
general realises exactly the declarative description of `tokenizeSpec`:
split on each maximal delimiter run, clean every fragment (trim, lower-case,
strip non-alphanumeric edges), drop cleaned fragments of length ≤ 2, keep
original order and duplicates; in particular the spec's example evaluates to
["water","glycerin","fragrance","parfum"]. -/
theorem normalize_matches_spec_tokenizer :
    (∀ ingredient_str : Option String,
      normalize_ingredient_string ingredient_str =
        tokenizeSpec ingredient_str) ∧
    normalize_ingredient_string none = [] ∧
    normalize_ingredient_string (some "") = [] ∧
    normalize_ingredient_string (some "Water, Glycerin; Fragrance(Parfum)") =
      ["water", "glycerin", "fragrance", "parfum"] := by
  refine ⟨?_, rfl, rfl, by with_unfolding_all decide⟩
  intro os
  cases os with
  | none => rfl
  | some s =>
    unfold normalize_ingredient_string tokenizeSpec
    by_cases hs : s = ""
    · simp [hs]
    · simp only [hs, if_false]
      exact collectTokens_eq_filter_map _

/-- C6: deduplication by id is last-write-wins: filtering the unique
product list for any id yields exactly the last stub carrying that id in
processing order (the whole record — an overwrite, not a field-wise
merge), and nothing when the id never occurs. -/
theorem dedupById_last_write_wins (ps : List ProductStub) (i : String) :
    (dedupById ps).filter (fun p => decide (p.id = i)) =
      ((ps.filter (fun p => decide (p.id = i))).getLast?).toList := by
  have hnd := nodup_stubKeys_seenFold ps [] (by simp)
  have hid : IdConsistent (seenFold ps []) :=
    idConsistent_seenFold ps []
      (fun kv h => absurd h (List.not_mem_nil kv))
  rw [show dedupById ps = (seenFold ps []).map Prod.snd from rfl]
  rw [filter_map_snd_eq_lookup _ i hnd hid, lookupStub_seenFold]
  cases h : (ps.filter (fun p => decide (p.id = i))).getLast? with
  | some v => rfl
  | none => rfl

/-- C7: for a product whose detail fetch succeeds, its enriched record is
produced and carries id, name and reviews_count from the stub, ingredients
from the detail record, and the detail rating when present, else the stub
rating. -/
theorem enriched_fields_from_stub_and_detail
    (fetchDetails : String → Except String ProductDetail)
    (ups : List ProductStub) (p : ProductStub) (d : ProductDetail)
    (hp : p ∈ ups) (hd : fetchDetails p.id = Except.ok d) :
    mkEnriched p d ∈ detailPhase fetchDetails ups ∧
    (mkEnriched p d).id = p.id ∧
    (mkEnriched p d).name = p.name ∧
    (mkEnriched p d).reviews_count = p.reviews_count ∧
    (mkEnriched p d).ingredients = d.ingredients ∧
    (∀ r, d.rating = some r → (mkEnriched p d).rating = r) ∧
    (d.rating = none → (mkEnriched p d).rating = p.rating) := by
  refine ⟨?_, rfl, rfl, rfl, rfl, ?_, ?_⟩
  · induction ups with
    | nil => cases hp
    | cons q rest ih =>
      rw [List.mem_cons] at hp
      rcases hp with h | h
      · subst h
        unfold detailPhase
        rw [hd]
        exact List.mem_cons_self _ _
      · unfold detailPhase
        cases hq : fetchDetails q.id with
        | error e => exact ih h
        | ok dq => exact List.mem_cons_of_mem _ (ih h)
  · intro r hr
    simp [mkEnriched, hr]
  · intro hr
    simp [mkEnriched, hr]

/-- Witness for C7 at a concrete stub and detail record (rating present in
the detail record, so it wins over the stub rating). -/
theorem enriched_fields_from_stub_and_detail_witness :
    mkEnriched ⟨"p1", some "Nice", 3, some 7⟩
        ⟨some "water, glycerin", some (9/2)⟩ ∈
      detailPhase (fun _ => Except.ok ⟨some "water, glycerin", some (9/2)⟩)
        [⟨"p1", some "Nice", 3, some 7⟩] ∧
    (mkEnriched ⟨"p1", some "Nice", 3, some 7⟩
        ⟨some "water, glycerin", some (9/2)⟩).id = "p1" ∧
    (mkEnriched ⟨"p1", some "Nice", 3, some 7⟩
        ⟨some "water, glycerin", some (9/2)⟩).name = some "Nice" ∧
    (mkEnriched ⟨"p1", some "Nice", 3, some 7⟩
        ⟨some "water, glycerin", some (9/2)⟩).reviews_count = some 7 ∧
    (mkEnriched ⟨"p1", some "Nice", 3, some 7⟩
        ⟨some "water, glycerin", some (9/2)⟩).ingredients =
      some "water, glycerin" ∧
    (mkEnriched ⟨"p1", some "Nice", 3, some 7⟩
        ⟨some "water, glycerin", some (9/2)⟩).rating = 9/2 :=
  ⟨(enriched_fields_from_stub_and_detail _ _ _ _
      (List.mem_singleton.mpr rfl) rfl).1,
    rfl, rfl, rfl, rfl,
    (enriched_fields_from_stub_and_detail
        (fun _ => Except.ok ⟨some "water, glycerin", some (9/2)⟩)
        [⟨"p1", some "Nice", 3, some 7⟩] ⟨"p1", some "Nice", 3, some 7⟩
        ⟨some "water, glycerin", some (9/2)⟩
        (List.mem_singleton.mpr rfl) rfl).2.2.2.2.2.1 (9/2) rfl⟩

/-- C8: detail-fetch failures are per-product and non-fatal — products
whose fetch fails contribute nothing and the remaining products are
unaffected; when every fetch fails the enrichment yields nothing; and
whenever the search phase succeeds the run reaches persistence and
aggregation, producing both output tables from whatever was collected. -/
theorem detail_failures_skipped
    (fetchDetails : String → Except String ProductDetail)
    (api : String → ℕ → Except String SearchPage)
    (ups stubs : List ProductStub) :
    detailPhase fetchDetails ups =
      detailPhase fetchDetails
        (ups.filter (fun p => (fetchDetails p.id).isOk)) ∧
    ((∀ p ∈ ups, (fetchDetails p.id).isOk = false) →
      detailPhase fetchDetails ups = []) ∧
    (searchLoop api search_terms = Except.ok stubs →
      mainPipeline api fetchDetails =
        Except.ok (detailPhase fetchDetails (dedupById stubs),
          build_ingredient_stats
            ((detailPhase fetchDetails (dedupById stubs)).map toAProduct))) := by
  refine ⟨?_, ?_, ?_⟩
  · induction ups with
    | nil => rfl
    | cons p rest ih =>
      rw [List.filter_cons]
      cases h : fetchDetails p.id with
      | error e =>
        rw [detailPhase_cons_error fetchDetails p rest e h,
          show ((Except.error e : Except String ProductDetail).isOk) = false
            from rfl]
        simp only [Bool.false_eq_true, if_false]
        exact ih
      | ok d =>
        rw [detailPhase_cons_ok fetchDetails p rest d h,
          show ((Except.ok d : Except String ProductDetail).isOk) = true
            from rfl, if_pos rfl,
          detailPhase_cons_ok fetchDetails p
            (rest.filter (fun q => (fetchDetails q.id).isOk)) d h, ih]
  · intro hall
    induction ups with
    | nil => rfl
    | cons p rest ih =>
      cases h : fetchDetails p.id with
      | error e =>
        rw [detailPhase_cons_error fetchDetails p rest e h]
        exact ih (fun q hq => hall q (List.mem_cons_of_mem _ hq))
      | ok d =>
        have := hall p (List.mem_cons_self _ _)
        rw [h] at this
        cases this
  · intro hsearch
    unfold mainPipeline
    rw [hsearch]

/-- Witness for C8: with every detail fetch failing, the enrichment list is
empty, untouched by filtering, and the pipeline still reaches the output
stage with two empty tables. -/
theorem detail_failures_skipped_witness :
    (detailPhase (fun _ => Except.error "boom")
        [⟨"a", none, 4, none⟩, ⟨"b", none, 5, none⟩] =
      detailPhase (fun _ => Except.error "boom")
        (([⟨"a", none, 4, none⟩, ⟨"b", none, 5, none⟩] :
            List ProductStub).filter
          (fun p => ((fun _ => (Except.error "boom" :
            Except String ProductDetail)) p.id).isOk))) ∧
    detailPhase (fun _ => Except.error "boom")
        [⟨"a", none, 4, none⟩, ⟨"b", none, 5, none⟩] = [] ∧
    mainPipeline (fun _ _ => Except.ok ⟨none, none⟩)
        (fun _ => Except.error "boom") = Except.ok ([], []) := by
  have h := detail_failures_skipped (fun _ => Except.error "boom")
    (fun _ _ => Except.ok ⟨none, none⟩)
    [⟨"a", none, 4, none⟩, ⟨"b", none, 5, none⟩] []
  refine ⟨h.1, h.2.1 (fun p _ => rfl), ?_⟩
  have h3 := h.2.2 rfl
  rw [h3]
  rfl

/-- C9: a search-page item is kept only when both an id and a rating are
present after the field-name fallback (spec policy `fallback`: primary
field, else alternate, else absent); an item missing either is dropped
rather than raising an error. -/
theorem parseItem_requires_id_and_rating (p : Item) :
    (∀ stub, parseItem p = some stub →
      (fallback p.id p.productId).isSome = true ∧
      (fallback p.rating p.averageRating).isSome = true) ∧
    ((fallback p.id p.productId = none ∨
        fallback p.rating p.averageRating = none) →
      parseItem p = none) := by
  constructor
  · intro stub hstub
    constructor
    · cases hid : p.id with
      | some s => rfl
      | none =>
        cases hpid : p.productId with
        | some s => rfl
        | none =>
          exfalso
          unfold parseItem at hstub
          rw [show pyOrStr p.id p.productId = none
            from by rw [hid, hpid]; rfl] at hstub
          cases hstub
    · cases hr : p.rating with
      | some x => rfl
      | none =>
        cases har : p.averageRating with
        | some x => rfl
        | none =>
          exfalso
          unfold parseItem at hstub
          rw [show pyOrRat p.rating p.averageRating = none
            from by rw [hr, har]; rfl] at hstub
          cases hps : pyOrStr p.id p.productId with
          | none => rw [hps] at hstub; cases hstub
          | some pid => rw [hps] at hstub; cases hstub
  · intro hmiss
    unfold parseItem
    rcases hmiss with hmiss | hmiss
    · have hid : p.id = none := by
        cases h : p.id with
        | none => rfl
        | some s => rw [show fallback p.id p.productId = some s
            from by rw [h]; rfl] at hmiss; cases hmiss
      have hpid : p.productId = none := by
        cases h : p.productId with
        | none => rfl
        | some s =>
          rw [show fallback p.id p.productId = some s
            from by rw [hid, h]; rfl] at hmiss
          cases hmiss
      rw [show pyOrStr p.id p.productId = none
        from by rw [hid, hpid]; rfl]
    · have hr : p.rating = none := by
        cases h : p.rating with
        | none => rfl
        | some x => rw [show fallback p.rating p.averageRating = some x
            from by rw [h]; rfl] at hmiss; cases hmiss
      have har : p.averageRating = none := by
        cases h : p.averageRating with
        | none => rfl
        | some x =>
          rw [show fallback p.rating p.averageRating = some x
            from by rw [hr, h]; rfl] at hmiss
          cases hmiss
      rw [show pyOrRat p.rating p.averageRating = none
        from by rw [hr, har]; rfl]
      cases pyOrStr p.id p.productId <;> rfl

/-- Witness for C9: an item carrying id and rating under the alternate
field names is kept (both resolved fields present), and an item with no
rating under either name is dropped. -/
theorem parseItem_requires_id_and_rating_witness :
    ((fallback (none : Option String) (some "abc")).isSome = true ∧
      (fallback (none : Option ℚ) (some 4)).isSome = true) ∧
    parseItem ⟨some "xyz", none, some "NoRating", none, none, some 3, none⟩ =
      none :=
  ⟨(parseItem_requires_id_and_rating
        ⟨none, some "abc", some "Alt", none, some 4, none, some 3⟩).1
      ⟨"abc", some "Alt", 4, some 3⟩ (by with_unfolding_all decide),
    (parseItem_requires_id_and_rating
        ⟨some "xyz", none, some "NoRating", none, none, some 3, none⟩).2
      (Or.inr rfl)⟩

/-- Propagation of a listing-page error through the search loop of `main`:
once the loop reaches a term whose fetch raises, the whole loop evaluates
to that error. -/
theorem searchLoop_error_propagates
    (api : String → ℕ → Except String SearchPage) (e : String)
    (pre : List String) (t : String) (post : List String)
    (hok : ∀ t' ∈ pre, (fetch_products_for_search_term api t' 3).isOk = true)
    (herr : fetch_products_for_search_term api t 3 = Except.error e) :
    searchLoop api (pre ++ t :: post) = Except.error e := by
  induction pre with
  | nil =>
    rw [List.nil_append]
    unfold searchLoop
    rw [herr]
  | cons t0 rest ih =>
    have h0 := hok t0 (List.mem_cons_self _ _)
    rw [List.cons_append]
    unfold searchLoop
    cases h : fetch_products_for_search_term api t0 3 with
    | error e0 =>
      rw [h] at h0
      cases h0
    | ok prods =>
      rw [ih (fun t' ht' => hok t' (List.mem_cons_of_mem _ ht'))]

/-- C10: if the listing fetch for some reached search term raises (all
earlier terms having succeeded), the error propagates uncaught through
`fetch_products_for_search_term` and the orchestrator's search loop and the
whole run aborts with that error — before any output would be produced (an
`Except.error` result carries no output tables) — rather than skipping a
page, a term, or a product. -/
theorem listing_error_aborts_run
    (api : String → ℕ → Except String SearchPage)
    (fetchDetails : String → Except String ProductDetail) (e : String)
    (pre : List String) (t : String) (post : List String)
    (hterms : search_terms = pre ++ t :: post)
    (hok : ∀ t' ∈ pre, (fetch_products_for_search_term api t' 3).isOk = true)
    (herr : fetch_products_for_search_term api t 3 = Except.error e) :
    mainPipeline api fetchDetails = Except.error e := by
  unfold mainPipeline
  rw [hterms, searchLoop_error_propagates api e pre t post hok herr]

/-- Witness for C10: an API oracle that fails every listing call aborts the
whole pipeline with that error on the very first search term. -/
theorem listing_error_aborts_run_witness :
    mainPipeline (fun _ _ => Except.error "API error 500")
      (fun _ => Except.ok ⟨none, none⟩) = Except.error "API error 500" :=
  listing_error_aborts_run (fun _ _ => Except.error "API error 500")
    (fun _ => Except.ok ⟨none, none⟩) "API error 500"
    [] "moisturizer" ["serum", "cleanser", "foundation"] rfl
    (fun t' h => absurd h (List.not_mem_nil t')) rfl

end Sephora
